import Mathlib

/-!
Verification model of the Menu Maker application (src/main.py).

The in-memory menu tree of the program is a Python dict mapping category
names to dicts of the shape {expanded: bool, items: [...]}; each item is a
dict with string fields label, cmd, info, category and an optional boolean
field pause.  Python dicts preserve insertion order, so the tree is modelled
as an association list with unique keys in insertion order, and the dict
primitives (lookup, in-place update of an existing key, insert-or-overwrite,
key deletion) are modelled by the dict* functions below, which agree with
Python dict semantics on lists whose keys are unique.

Every definition in the `MenuMaker` namespace that carries a Python name in
its doc comment is a direct translation of the correspondingly named method
of the `MenuMaker` class in src/main.py.  Definitions whose names end in
`_spec` restate sentences of the natural-language specification and are
compared with the translated code by theorem.
-/

namespace MenuMaker

/-- An item dictionary of src/main.py: string fields `label`, `cmd`, `info`,
`category`, and an optional boolean `pause` (absent key modelled as `none`;
the code reads it with `.get('pause', False)`). -/
structure Item where
  label : String
  cmd : String
  info : String
  category : String
  pause : Option Bool
deriving DecidableEq, Repr

/-- A category dictionary of src/main.py: `{expanded: bool, items: [...]}`. -/
structure Category where
  expanded : Bool
  items : List Item
deriving DecidableEq, Repr

/-- The menu tree `self.menu_data`: an insertion-ordered mapping from
category name to category data. -/
abbrev MenuTree := List (String × Category)

/-- One entry of `self.display_items`: either a category header or an item
(the widget component of the Python dict is presentation-only and omitted). -/
inductive DisplayEntry where
  | category (name : String)
  | item (data : Item)
deriving DecidableEq, Repr

/-- A notification raised via `self.notify`: default (info) severity or
warning severity. -/
inductive Notif where
  | info (msg : String)
  | warning (msg : String)
deriving DecidableEq, Repr

/-- The persisted application settings: `self.app_theme` and `self.app_title`. -/
structure AppSettings where
  theme : String
  title : String
deriving DecidableEq, Repr

/-! ### Python dict primitives on association lists -/

/-- `d[k]` / `d.get(k)`: the value at the first (on unique-key lists, only)
occurrence of key `k`. -/
def dictLookup (t : List (String × Category)) (k : String) : Option Category :=
  (t.find? (fun p => p.1 == k)).map (fun p => p.2)

/-- In-place mutation `d[k] = f d[k]` of an existing key: the entry keeps its
position. -/
def dictUpdate (t : List (String × Category)) (k : String) (f : Category → Category) :
    List (String × Category) :=
  t.map (fun p => if p.1 == k then (p.1, f p.2) else p)

/-- `d[k] = v`: overwrite in place when the key is present (keeping its
position), otherwise append at the end — Python dict assignment. -/
def dictInsert (t : List (String × Category)) (k : String) (v : Category) :
    List (String × Category) :=
  if t.any (fun p => p.1 == k) then
    t.map (fun p => if p.1 == k then (k, v) else p)
  else t ++ [(k, v)]

/-- `del d[k]`. -/
def dictRemove (t : List (String × Category)) (k : String) : List (String × Category) :=
  t.filter (fun p => p.1 != k)

/-! ### The flattener -/

/-- Body of the category loop of `MenuMaker.update_menu_display`
(src/main.py lines 605-621): append the header entry for the category, then,
if the category is expanded, append one item entry per item in list order. -/
def flattenStep (acc : List DisplayEntry) (p : String × Category) : List DisplayEntry :=
  let acc1 := acc ++ [DisplayEntry.category p.1]
  if p.2.expanded then
    p.2.items.foldl (fun a it => a ++ [DisplayEntry.item it]) acc1
  else acc1

/-- The flattened display list built by the loop of
`MenuMaker.update_menu_display` over `self.menu_data.items()` (src/main.py
lines 605-621): this is `self.display_items` as a function of the tree. -/
def flatten (t : MenuTree) : List DisplayEntry :=
  t.foldl flattenStep []

/-- The flattener as worded by the specification (section 4.2): iterate
categories in tree order; emit one category entry per category; if that
category's `expanded` flag is true, emit one item entry per item in that
category's list order, immediately after the category entry; a collapsed
category contributes only its header. -/
def flatten_spec (t : MenuTree) : List DisplayEntry :=
  t.flatMap (fun p =>
    DisplayEntry.category p.1 ::
      (if p.2.expanded then p.2.items.map DisplayEntry.item else []))

/-- `MenuMaker.cleanup_empty_categories` (src/main.py lines 632-642): keep
exactly the categories whose item list is non-empty. -/
def cleanup_empty_categories (t : MenuTree) : MenuTree :=
  t.filter (fun p => !p.2.items.isEmpty)

/-! ### Invariants and spec-side predicates -/

/-- The tree invariant of the running display (section 3 of the
specification): no category has an empty item list.  Every tree that has
been through `update_menu_display` satisfies it. -/
def NoEmpty (t : MenuTree) : Prop := ∀ p ∈ t, p.2.items ≠ []

/-- The cursor invariant worded by the specification: the index lies within
`[0, len(flatten t) - 1]` when the flattened sequence is non-empty, and
equals 0 when it is empty. -/
def cursorOK (t : MenuTree) (idx : Nat) : Prop :=
  idx < (flatten t).length ∨ ((flatten t).length = 0 ∧ idx = 0)

instance (t : MenuTree) : Decidable (NoEmpty t) := by
  unfold NoEmpty
  infer_instance

instance (t : MenuTree) (idx : Nat) : Decidable (cursorOK t idx) := by
  unfold cursorOK
  infer_instance

/-! ### Persistence: the JSON document, save and load

The persisted file is a JSON document; `json.dump` / `json.load` preserve
key order and round-trip exactly the JSON values the menu document uses
(objects, arrays, strings, booleans), so the file content is modelled as a
JSON value rather than text.  The in-memory tree of the Python program is
the raw parsed structure; the typed view below records what that structure
is for a well-formed menu document. -/

/-- The fragment of JSON that the menu document uses. -/
inductive Json where
  | str (s : String)
  | bool (b : Bool)
  | arr (elems : List Json)
  | obj (fields : List (String × Json))

/-- Field access on a JSON object (`data.get(k)` / `k in data`). -/
def jLookup (fs : List (String × Json)) (k : String) : Option Json :=
  (fs.find? (fun p => p.1 == k)).map (fun p => p.2)

/-- Serialization of one item dictionary: the `pause` key is present exactly
when the item carries one. -/
def encodeItem (it : Item) : Json :=
  Json.obj
    ([("label", Json.str it.label), ("cmd", Json.str it.cmd),
      ("info", Json.str it.info), ("category", Json.str it.category)] ++
      (match it.pause with
       | some b => [("pause", Json.bool b)]
       | none => []))

/-- Serialization of one category dictionary. -/
def encodeCategory (c : Category) : Json :=
  Json.obj [("expanded", Json.bool c.expanded),
            ("items", Json.arr (c.items.map encodeItem))]

/-- Serialization of the tree, preserving category insertion order. -/
def encodeTree (t : MenuTree) : Json :=
  Json.obj (t.map (fun p => (p.1, encodeCategory p.2)))

/-- `MenuMaker.save_menu_data` (src/main.py lines 554-567): the JSON document
written to the file,
`{"categories": tree, "app_settings": {"theme": ..., "title": ...}}`. -/
def save_menu_data (t : MenuTree) (s : AppSettings) : Json :=
  Json.obj [("categories", encodeTree t),
            ("app_settings", Json.obj [("theme", Json.str s.theme),
                                       ("title", Json.str s.title)])]

/-- Typed reading of one item dictionary (an absent `pause` key stays
absent, matching `.get('pause', False)` reads elsewhere). -/
def decodeItem : Json → Option Item
  | Json.obj fs =>
    match jLookup fs "label", jLookup fs "cmd",
          jLookup fs "info", jLookup fs "category" with
    | some (Json.str l), some (Json.str c), some (Json.str i), some (Json.str k) =>
      match jLookup fs "pause" with
      | none => some ⟨l, c, i, k, none⟩
      | some (Json.bool b) => some ⟨l, c, i, k, some b⟩
      | some _ => none
    | _, _, _, _ => none
  | _ => none

/-- Typed reading of a list of item dictionaries, in list order. -/
def decodeItems : List Json → Option (List Item)
  | [] => some []
  | x :: xs => (decodeItem x).bind (fun it => (decodeItems xs).map (fun l => it :: l))

/-- Typed reading of one category dictionary; an absent `expanded` key
defaults to true and an absent `items` key to `[]`, matching the
`.get('expanded', True)` / `.get('items', [])` reads of the code. -/
def decodeCategory : Json → Option Category
  | Json.obj fs =>
    (match jLookup fs "expanded" with
     | some (Json.bool b) => some b
     | none => some true
     | some _ => none).bind (fun b =>
      (match jLookup fs "items" with
       | some (Json.arr xs) => decodeItems xs
       | none => some []
       | some _ => none).map (fun l => ⟨b, l⟩))
  | _ => none

/-- Typed reading of the `categories` object's field list, in file
(insertion) order. -/
def decodeEntries : List (String × Json) → Option MenuTree
  | [] => some []
  | p :: ps =>
    (decodeCategory p.2).bind (fun c => (decodeEntries ps).map (fun l => (p.1, c) :: l))

/-- Typed reading of the `categories` mapping. -/
def decodeTree : Json → Option MenuTree
  | Json.obj fs => decodeEntries fs
  | _ => none

/-- The settings reading of `MenuMaker.load_menu_data` (src/main.py lines
529-535): starting from the current defaults, take `theme` and `title` from
the `app_settings` object when the keys are present. -/
def load_settings (j : Json) (s : AppSettings) : AppSettings :=
  match j with
  | Json.obj fs =>
    let s1 := match jLookup fs "theme" with
              | some (Json.str th) => AppSettings.mk th s.title
              | _ => s
    match jLookup fs "title" with
    | some (Json.str ti) => AppSettings.mk s1.theme ti
    | _ => s1
  | _ => s

/-- The default tree of `MenuMaker.create_default_menu` (src/main.py lines
541-552). -/
def create_default_menu_data : MenuTree :=
  [("System Tools",
    ⟨true, [⟨"System Monitor", "htop", "Interactive process viewer", "System Tools", none⟩]⟩)]

/-- The settings defaults set in `MenuMaker.__init__` (src/main.py lines
517-518). -/
def default_app_settings : AppSettings :=
  ⟨"classic", "Menu Maker — Enhanced Categorized Menu System"⟩

/-- The state of the backing file as `load_menu_data` observes it: absent,
present but failing to read or parse (an exception inside the `try` block),
or successfully parsed to a JSON value. -/
inductive FileState where
  | missing
  | unreadable
  | parsed (j : Json)

/-- `MenuMaker.load_menu_data` (src/main.py lines 521-539) together with
`create_default_menu`: returns the resulting tree, the resulting settings,
and the document written to the file by the call (`none` when nothing is
written).  A missing file and a read/parse failure both run
`create_default_menu`, which installs the default tree and immediately calls
`save_menu_data`. -/
def load_menu_data : FileState → MenuTree × AppSettings × Option Json
  | FileState.missing =>
    (create_default_menu_data, default_app_settings,
     some (save_menu_data create_default_menu_data default_app_settings))
  | FileState.unreadable =>
    (create_default_menu_data, default_app_settings,
     some (save_menu_data create_default_menu_data default_app_settings))
  | FileState.parsed j =>
    match j with
    | Json.obj fs =>
      let t := match jLookup fs "categories" with
               | some c => (decodeTree c).getD []
               | none => []
      let s := match jLookup fs "app_settings" with
               | some st => load_settings st default_app_settings
               | none => default_app_settings
      (t, s, none)
    | _ =>
      (create_default_menu_data, default_app_settings,
       some (save_menu_data create_default_menu_data default_app_settings))

/-! ### Mutation operations -/

/-- `MenuMaker.add_new_item` (src/main.py lines 835-849), tree part: if the
item's category is absent it is created (`expanded = true`, empty list,
appended at the end of category order); then the item is appended to that
category's list. -/
def add_new_item (t : MenuTree) (it : Item) : MenuTree :=
  let t1 := if (dictLookup t it.category).isSome then t
            else t ++ [(it.category, ⟨true, []⟩)]
  dictUpdate t1 it.category (fun c => ⟨c.expanded, c.items ++ [it]⟩)

/-- The item match of `MenuMaker.update_item` (src/main.py lines 862-864):
equality of the `label` and `cmd` fields. -/
def matchesLC (o it : Item) : Bool :=
  it.label == o.label && it.cmd == o.cmd

/-- The inner loop of `MenuMaker.update_item`: replace the first item of the
list whose (label, cmd) equals that of `o` by `n`; `none` when no item
matches. -/
def replaceFirstItem (items : List Item) (o n : Item) : Option (List Item) :=
  match items with
  | [] => none
  | it :: rest =>
    if matchesLC o it then some (n :: rest)
    else (replaceFirstItem rest o n).map (fun l => it :: l)

/-- `MenuMaker.update_item` (src/main.py lines 851-873), tree part: scan
categories in tree order and, inside each, items in list order; on the first
(label, cmd) match overwrite that entry with `new_item` and stop; `none`
when no item matches (the code then notifies a warning and leaves
`self.menu_data` untouched). -/
def update_item (t : MenuTree) (o n : Item) : Option MenuTree :=
  match t with
  | [] => none
  | (k, c) :: rest =>
    match replaceFirstItem c.items o n with
    | some items2 => some ((k, ⟨c.expanded, items2⟩) :: rest)
    | none => (update_item rest o n).map (fun l => (k, c) :: l)

/-- `MenuMaker.update_item` with its notification: `Updated: ...` (default
severity) on success, `Item not found for update: ...` warning otherwise. -/
def update_item_op (t : MenuTree) (o n : Item) : MenuTree × Notif :=
  match update_item t o n with
  | some t2 => (t2, Notif.info ("Updated: " ++ n.label))
  | none => (t, Notif.warning ("Item not found for update: " ++ o.label))

/-- `MenuMaker.rename_category` (src/main.py lines 875-896), tree part:
no-op when the old name is absent or the new name equals the old; otherwise
store the category data under the new key (Python dict assignment:
in-place overwrite when the key exists, else append), set the `category`
field of every contained item to the new name, and delete the old key. -/
def rename_category (t : MenuTree) (o n : String) : MenuTree :=
  match dictLookup t o with
  | none => t
  | some c =>
    if n = o then t
    else
      dictRemove
        (dictInsert t n ⟨c.expanded, c.items.map (fun it => ⟨it.label, it.cmd, it.info, n, it.pause⟩)⟩)
        o

/-- Python `list.remove(x)`: drop the first element equal to `x` (the code
guards the call with `x in items`, so the absent case is unreachable
there). -/
def removeFirst (xs : List Item) (x : Item) : List Item :=
  match xs with
  | [] => []
  | y :: ys => if y = x then ys else y :: removeFirst ys x

/-- The item branch of `MenuMaker.action_delete_item` (src/main.py lines
905-927), tree part: look up the category named by the item's own
`category` field; when that category exists and its list contains a
value-equal item, remove the first such occurrence, delete the category
when its list becomes empty, and notify `Deleted: ...`; in every other case
nothing happens and nothing is notified. -/
def action_delete_item (t : MenuTree) (it : Item) : MenuTree × Option Notif :=
  match dictLookup t it.category with
  | none => (t, none)
  | some c =>
    if it ∈ c.items then
      let items2 := removeFirst c.items it
      if items2.isEmpty then
        (dictRemove t it.category, some (Notif.info ("Deleted: " ++ it.label)))
      else
        (dictUpdate t it.category (fun c0 => ⟨c0.expanded, items2⟩),
         some (Notif.info ("Deleted: " ++ it.label)))
    else (t, none)

/-- The expanded-flag flip of `MenuMaker.action_toggle_category`
(src/main.py lines 762-765): in-place update of the named category. -/
def toggle_expanded (t : MenuTree) (name : String) : MenuTree :=
  dictUpdate t name (fun c => ⟨!c.expanded, c.items⟩)

/-- The index clamp of `MenuMaker.update_highlighting` (src/main.py lines
644-649): when the display list is empty the method returns early and the
cursor keeps its value; otherwise `max(0, min(index, len - 1))`. -/
def clampIdx (idx len : Nat) : Nat :=
  if len = 0 then idx else min idx (len - 1)

/-- The loop of `MenuMaker.restore_position_to_category` (src/main.py lines
776-781): index of the first category-header entry with the given name. -/
def findHeaderIdx : List DisplayEntry → String → Option Nat
  | [], _ => none
  | DisplayEntry.category n :: rest, name =>
    if n = name then some 0 else (findHeaderIdx rest name).map (fun i => i + 1)
  | DisplayEntry.item _ :: rest, name =>
    (findHeaderIdx rest name).map (fun i => i + 1)

/-- `MenuMaker.restore_position_to_category`: move the cursor to the first
header entry of the named category; keep the cursor when there is none. -/
def restore_position_to_category (entries : List DisplayEntry) (name : String)
    (idx : Nat) : Nat :=
  match findHeaderIdx entries name with
  | some i => i
  | none => idx

/-- `MenuMaker.action_toggle_category` (src/main.py lines 748-774) as a
transition on (tree, cursor): the display list the action reads is
`flatten t` (the invariant of the running app: `self.display_items` is
rebuilt from `self.menu_data` after every mutation).  When the cursor is on
a category header whose name is still in the tree: flip `expanded`, rebuild
the display (`update_menu_display` = cleanup, re-flatten, clamp the cursor),
then restore the cursor to the same category's header entry. -/
def action_toggle_category (t : MenuTree) (idx : Nat) : MenuTree × Nat :=
  match (flatten t).get? idx with
  | some (DisplayEntry.category name) =>
    if (dictLookup t name).isSome then
      let t2 := cleanup_empty_categories (toggle_expanded t name)
      let i1 := clampIdx idx (flatten t2).length
      (t2, restore_position_to_category (flatten t2) name i1)
    else (t, idx)
  | _ => (t, idx)

/-! ### The mutate / persist / re-flatten / re-clamp pipeline of each action

Each mutating action of src/main.py assigns `self.menu_data` and calls
`update_menu_display`, which runs `cleanup_empty_categories`, rebuilds
`self.display_items` and clamps `self.current_index` via
`update_highlighting`; `action_delete_item` afterwards applies its own
index adjustment (src/main.py lines 925-927).  The *_step functions below
are those pipelines as transitions on (tree, cursor). -/

/-- The pipeline of `MenuMaker.add_new_item`. -/
def add_step (t : MenuTree) (idx : Nat) (it : Item) : MenuTree × Nat :=
  let t2 := cleanup_empty_categories (add_new_item t it)
  (t2, clampIdx idx (flatten t2).length)

/-- The pipeline of `MenuMaker.update_item`: the not-found branch mutates
nothing and rebuilds nothing. -/
def update_step (t : MenuTree) (idx : Nat) (o n : Item) : MenuTree × Nat :=
  match update_item t o n with
  | some t1 =>
    let t2 := cleanup_empty_categories t1
    (t2, clampIdx idx (flatten t2).length)
  | none => (t, idx)

/-- The pipeline of the item branch of `MenuMaker.action_delete_item`,
including its final index adjustment
`if current >= len - 1: current = max(0, len - 2)` (computed on Python
ints, hence the explicit `Int` arithmetic). -/
def delete_step (t : MenuTree) (idx : Nat) (it : Item) : MenuTree × Nat :=
  match action_delete_item t it with
  | (t1, some _) =>
    let t2 := cleanup_empty_categories t1
    let len := (flatten t2).length
    let i1 := clampIdx idx len
    let i2 := if (i1 : Int) ≥ (len : Int) - 1
              then (max 0 ((len : Int) - 2)).toNat else i1
    (t2, i2)
  | (_, none) => (t, idx)

/-- The pipeline of `MenuMaker.rename_category`: the no-op guard returns
before any display update. -/
def rename_step (t : MenuTree) (idx : Nat) (o n : String) : MenuTree × Nat :=
  match dictLookup t o with
  | none => (t, idx)
  | some _ =>
    if n = o then (t, idx)
    else
      let t2 := cleanup_empty_categories (rename_category t o n)
      (t2, clampIdx idx (flatten t2).length)

/-! ### Generalities about the flattener -/

theorem items_foldl_append (items : List Item) (acc : List DisplayEntry) :
    items.foldl (fun a it => a ++ [DisplayEntry.item it]) acc
      = acc ++ items.map DisplayEntry.item := by
  induction items generalizing acc with
  | nil => simp
  | cons x xs ih => simp [List.foldl_cons, ih]

theorem flattenStep_eq (acc : List DisplayEntry) (p : String × Category) :
    flattenStep acc p
      = acc ++ (DisplayEntry.category p.1 ::
          (if p.2.expanded then p.2.items.map DisplayEntry.item else [])) := by
  unfold flattenStep
  cases h : p.2.expanded <;> simp [h, items_foldl_append]

theorem flatten_go (t : MenuTree) (acc : List DisplayEntry) :
    t.foldl flattenStep acc = acc ++ flatten_spec t := by
  induction t generalizing acc with
  | nil => simp [flatten_spec]
  | cons p ps ih =>
    simp only [List.foldl_cons, ih, flattenStep_eq, flatten_spec, List.flatMap_cons,
      List.append_assoc]

/-! ### Dictionary lemmas -/

theorem flatten_eq (t : MenuTree) : flatten t = flatten_spec t := by
  simpa using flatten_go t []

theorem dictLookup_nil (k : String) : dictLookup [] k = none := rfl

theorem dictLookup_cons (p : String × Category) (ps : List (String × Category))
    (k : String) :
    dictLookup (p :: ps) k = if p.1 == k then some p.2 else dictLookup ps k := by
  by_cases hk : p.1 = k
  · rw [if_pos (by simp [hk])]
    unfold dictLookup
    rw [List.find?_cons_of_pos _ (by simp [hk])]
    rfl
  · rw [if_neg (by simp [hk])]
    unfold dictLookup
    rw [List.find?_cons_of_neg _ (by simp [hk])]

theorem dictUpdate_cons (p : String × Category) (ps : List (String × Category))
    (k : String) (f : Category → Category) :
    dictUpdate (p :: ps) k f
      = (if p.1 == k then (p.1, f p.2) else p) :: dictUpdate ps k f := rfl

theorem dictRemove_cons (p : String × Category) (ps : List (String × Category))
    (k : String) :
    dictRemove (p :: ps) k
      = if p.1 == k then dictRemove ps k else p :: dictRemove ps k := by
  cases hb : (p.1 == k) with
  | true => simp [dictRemove, List.filter, bne, hb]
  | false => simp [dictRemove, List.filter, bne, hb]

theorem dictLookup_some_mem {t : MenuTree} {k : String} {c : Category}
    (h : dictLookup t k = some c) : (k, c) ∈ t := by
  induction t with
  | nil => simp [dictLookup_nil] at h
  | cons p ps ih =>
    rw [dictLookup_cons] at h
    by_cases hk : p.1 = k
    · rw [if_pos (by simp [hk])] at h
      simp only [Option.some.injEq] at h
      have hpe : p = (k, c) := Prod.ext hk h
      rw [← hpe]
      exact List.mem_cons_self p ps
    · rw [if_neg (by simp [hk])] at h
      exact List.mem_cons_of_mem p (ih h)

theorem dictLookup_isSome_iff {t : MenuTree} {k : String} :
    (dictLookup t k).isSome ↔ ∃ p ∈ t, p.1 = k := by
  induction t with
  | nil => simp [dictLookup_nil]
  | cons p ps ih =>
    rw [dictLookup_cons]
    by_cases hk : p.1 = k
    · simp [hk]
    · rw [if_neg (by simp [hk])]
      simp [ih, hk]

theorem dictLookup_dictUpdate_self {t : MenuTree} {k : String} {c : Category}
    (f : Category → Category) (h : dictLookup t k = some c) :
    dictLookup (dictUpdate t k f) k = some (f c) := by
  induction t with
  | nil => simp [dictLookup_nil] at h
  | cons p ps ih =>
    rw [dictLookup_cons] at h
    rw [dictUpdate_cons]
    by_cases hk : p.1 = k
    · rw [if_pos (by simp [hk])] at h
      simp only [Option.some.injEq] at h
      rw [if_pos (by simp [hk]), dictLookup_cons, if_pos (by simp [hk])]
      rw [h]
    · rw [if_neg (by simp [hk])] at h
      rw [if_neg (by simp [hk]), dictLookup_cons, if_neg (by simp [hk])]
      exact ih h

theorem dictLookup_dictUpdate_ne {t : MenuTree} {k k2 : String}
    (f : Category → Category) (h : k2 ≠ k) :
    dictLookup (dictUpdate t k f) k2 = dictLookup t k2 := by
  induction t with
  | nil => rfl
  | cons p ps ih =>
    rw [dictUpdate_cons]
    by_cases hk : p.1 = k
    · have hk2 : ¬p.1 = k2 := fun he => h (by rw [← he, hk])
      rw [if_pos (by simp [hk]), dictLookup_cons, dictLookup_cons,
        if_neg (by simp [hk2]), if_neg (by simp [hk2])]
      exact ih
    · rw [if_neg (by simp [hk]), dictLookup_cons, dictLookup_cons]
      by_cases hk2 : p.1 = k2
      · rw [if_pos (by simp [hk2]), if_pos (by simp [hk2])]
      · rw [if_neg (by simp [hk2]), if_neg (by simp [hk2])]
        exact ih

theorem dictLookup_dictRemove_self (t : MenuTree) (k : String) :
    dictLookup (dictRemove t k) k = none := by
  induction t with
  | nil => rfl
  | cons p ps ih =>
    rw [dictRemove_cons]
    by_cases hk : p.1 = k
    · rw [if_pos (by simp [hk])]
      exact ih
    · rw [if_neg (by simp [hk]), dictLookup_cons, if_neg (by simp [hk])]
      exact ih

theorem dictLookup_dictRemove_ne {t : MenuTree} {k k2 : String} (h : k2 ≠ k) :
    dictLookup (dictRemove t k) k2 = dictLookup t k2 := by
  induction t with
  | nil => rfl
  | cons p ps ih =>
    rw [dictRemove_cons]
    by_cases hk : p.1 = k
    · have hk2 : ¬p.1 = k2 := fun he => h (by rw [← he, hk])
      rw [if_pos (by simp [hk]), dictLookup_cons, if_neg (by simp [hk2])]
      exact ih
    · rw [if_neg (by simp [hk]), dictLookup_cons, dictLookup_cons]
      by_cases hk2 : p.1 = k2
      · rw [if_pos (by simp [hk2]), if_pos (by simp [hk2])]
      · rw [if_neg (by simp [hk2]), if_neg (by simp [hk2])]
        exact ih

theorem mem_dictInsert_self (t : MenuTree) (k : String) (v : Category) :
    (k, v) ∈ dictInsert t k v := by
  unfold dictInsert
  by_cases ha : t.any (fun p => p.1 == k) = true
  · rw [if_pos ha]
    obtain ⟨p, hp, hpk⟩ := List.any_eq_true.mp ha
    exact List.mem_map.mpr ⟨p, hp, by simp [hpk]⟩
  · rw [if_neg ha]
    exact List.mem_append_right t (by simp)

theorem dictLookup_map_overwrite {k : String} {v : Category} (t : List (String × Category))
    (h : t.any (fun p => p.1 == k) = true) :
    dictLookup (t.map (fun p => if p.1 == k then (k, v) else p)) k = some v := by
  induction t with
  | nil => simp at h
  | cons p ps ih =>
    rw [List.map_cons]
    by_cases hk : p.1 = k
    · rw [if_pos (by simp [hk]), dictLookup_cons, if_pos (by simp)]
    · rw [if_neg (by simp [hk]), dictLookup_cons, if_neg (by simp [hk])]
      simp only [List.any_cons] at h
      rcases Bool.or_eq_true_iff.mp h with h1 | h2
      · exact absurd (by simpa using h1) hk
      · exact ih h2

theorem dictLookup_append_right {k : String} {v : Category} (t : List (String × Category))
    (h : t.any (fun p => p.1 == k) = false) :
    dictLookup (t ++ [(k, v)]) k = some v := by
  induction t with
  | nil => simp [dictLookup_cons]
  | cons p ps ih =>
    simp only [List.any_cons, Bool.or_eq_false_iff] at h
    rw [List.cons_append, dictLookup_cons, if_neg (by simp [h.1])]
    exact ih h.2

theorem dictLookup_dictInsert_self (t : MenuTree) (k : String) (v : Category) :
    dictLookup (dictInsert t k v) k = some v := by
  unfold dictInsert
  by_cases ha : t.any (fun p => p.1 == k) = true
  · rw [if_pos ha]
    exact dictLookup_map_overwrite t ha
  · rw [if_neg ha]
    rw [Bool.not_eq_true] at ha
    exact dictLookup_append_right t ha

/-! ### Flattener membership lemmas -/

theorem header_mem_flatten_iff {t : MenuTree} {k : String} :
    DisplayEntry.category k ∈ flatten t ↔ ∃ p ∈ t, p.1 = k := by
  rw [flatten_eq]
  unfold flatten_spec
  rw [List.mem_flatMap]
  constructor
  · intro h
    obtain ⟨p, hp, hin⟩ := h
    rcases List.mem_cons.mp hin with he | hm
    · exact ⟨p, hp, (DisplayEntry.category.inj he).symm⟩
    · exfalso
      cases hex : p.2.expanded with
      | true =>
        rw [hex] at hm
        simp only [if_true] at hm
        obtain ⟨x, hx1, hx2⟩ := List.mem_map.mp hm
        exact DisplayEntry.noConfusion hx2
      | false =>
        rw [hex] at hm
        simp at hm
  · intro h
    obtain ⟨p, hp, hpk⟩ := h
    exact ⟨p, hp, by rw [hpk]; exact List.mem_cons_self _ _⟩

theorem flatten_length_pos {t : MenuTree} (h : t ≠ []) : 0 < (flatten t).length := by
  rw [flatten_eq]
  cases t with
  | nil => exact absurd rfl h
  | cons p ps => simp [flatten_spec]

theorem mem_cleanup {t : MenuTree} {p : String × Category}
    (hp : p ∈ t) (hne : p.2.items ≠ []) : p ∈ cleanup_empty_categories t := by
  refine List.mem_filter.mpr ⟨hp, ?_⟩
  simp [List.isEmpty_iff, hne]

theorem flatten_cleanup_length_pos {t : MenuTree}
    (h : ∃ p ∈ t, p.2.items ≠ []) :
    0 < (flatten (cleanup_empty_categories t)).length := by
  obtain ⟨p, hp, hne⟩ := h
  exact flatten_length_pos (List.ne_nil_of_mem (mem_cleanup hp hne))

theorem clampIdx_lt {idx len : Nat} (h : 0 < len) : clampIdx idx len < len := by
  unfold clampIdx
  rw [if_neg (Nat.pos_iff_ne_zero.mp h)]
  exact Nat.lt_of_le_of_lt (Nat.min_le_right idx (len - 1)) (Nat.sub_lt h Nat.one_pos)

/-! ### List decomposition lemmas for update and delete -/

theorem replaceFirstItem_none_iff {items : List Item} {o n : Item} :
    replaceFirstItem items o n = none ↔ ∀ it ∈ items, matchesLC o it = false := by
  induction items with
  | nil => simp [replaceFirstItem]
  | cons x xs ih =>
    cases hb : matchesLC o x with
    | true => simp [replaceFirstItem, hb]
    | false => simp [replaceFirstItem, hb, ih]

theorem replaceFirstItem_some_spec {items l : List Item} {o n : Item}
    (h : replaceFirstItem items o n = some l) :
    ∃ xs y ys, items = xs ++ y :: ys ∧ (∀ x ∈ xs, matchesLC o x = false)
      ∧ matchesLC o y = true ∧ l = xs ++ n :: ys := by
  induction items generalizing l with
  | nil => simp [replaceFirstItem] at h
  | cons x xs ih =>
    cases hb : matchesLC o x with
    | true =>
      simp only [replaceFirstItem, hb] at h
      simp only [if_true, Option.some.injEq] at h
      exact ⟨[], x, xs, by simp, by simp, hb, by simp [h.symm]⟩
    | false =>
      simp only [replaceFirstItem, hb] at h
      simp only [Bool.false_eq_true, if_false] at h
      cases hr : replaceFirstItem xs o n with
      | none => simp [hr] at h
      | some l2 =>
        rw [hr] at h
        simp only [Option.map_some'] at h
        obtain ⟨as, y, ys, h1, h2, h3, h4⟩ := ih hr
        have hl : l = x :: l2 := by
          cases h
          rfl
        refine ⟨x :: as, y, ys, by simp [h1], ?_, h3, by simp [hl, h4]⟩
        intro z hz
        rcases List.mem_cons.mp hz with he | hm
        · subst he; exact hb
        · exact h2 z hm

theorem removeFirst_decomp {xs : List Item} {x : Item} (h : x ∈ xs) :
    ∃ as bs, xs = as ++ x :: bs ∧ x ∉ as ∧ removeFirst xs x = as ++ bs := by
  induction xs with
  | nil => simp at h
  | cons y ys ih =>
    by_cases he : y = x
    · exact ⟨[], ys, by simp [he], by simp, by simp [removeFirst, he]⟩
    · have hm : x ∈ ys := by
        cases List.mem_cons.mp h with
        | inl h2 => exact absurd h2.symm he
        | inr h2 => exact h2
      obtain ⟨as, bs, h1, h2, h3⟩ := ih hm
      refine ⟨y :: as, bs, by simp [h1], ?_, by simp [removeFirst, he, h3]⟩
      intro hc
      cases List.mem_cons.mp hc with
      | inl h4 => exact he h4.symm
      | inr h4 => exact h2 h4

/-! ### Characterization of update_item -/

theorem update_item_cons (k : String) (c : Category) (rest : MenuTree) (o n : Item) :
    update_item ((k, c) :: rest) o n
      = match replaceFirstItem c.items o n with
        | some items2 => some ((k, ⟨c.expanded, items2⟩) :: rest)
        | none => (update_item rest o n).map (fun l => (k, c) :: l) := rfl

theorem update_item_none_iff {t : MenuTree} {o n : Item} :
    update_item t o n = none ↔ ∀ p ∈ t, ∀ it ∈ p.2.items, matchesLC o it = false := by
  induction t with
  | nil => simp [update_item]
  | cons p rest ih =>
    obtain ⟨k, c⟩ := p
    rw [update_item_cons]
    cases hr : replaceFirstItem c.items o n with
    | some items2 =>
      simp only [Option.some.injEq]
      constructor
      · intro h
        exact absurd h (by simp)
      · intro h
        obtain ⟨xs, y, ys, h1, h2, h3, h4⟩ := replaceFirstItem_some_spec hr
        have := h (k, c) (List.mem_cons_self _ _) y (by rw [h1]; simp)
        rw [h3] at this
        exact absurd this (by simp)
    | none =>
      simp only [Option.map_eq_none']
      rw [ih]
      constructor
      · intro h q hq
        rcases List.mem_cons.mp hq with he | hm
        · subst he
          exact replaceFirstItem_none_iff.mp hr
        · exact h q hm
      · intro h q hq
        exact h q (List.mem_cons_of_mem _ hq)

theorem update_item_some_decomp {t t2 : MenuTree} {o n : Item}
    (h : update_item t o n = some t2) :
    ∃ pre k c post xs y ys,
      t = pre ++ (k, c) :: post
      ∧ (∀ p ∈ pre, ∀ it ∈ p.2.items, matchesLC o it = false)
      ∧ c.items = xs ++ y :: ys
      ∧ (∀ x ∈ xs, matchesLC o x = false)
      ∧ matchesLC o y = true
      ∧ t2 = pre ++ (k, ⟨c.expanded, xs ++ n :: ys⟩) :: post := by
  induction t generalizing t2 with
  | nil => exact absurd h (by simp [update_item])
  | cons p rest ih =>
    obtain ⟨k, c⟩ := p
    rw [update_item_cons] at h
    cases hr : replaceFirstItem c.items o n with
    | some items2 =>
      rw [hr] at h
      simp only [Option.some.injEq] at h
      obtain ⟨xs, y, ys, h1, h2, h3, h4⟩ := replaceFirstItem_some_spec hr
      exact ⟨[], k, c, rest, xs, y, ys, by simp, by simp, h1, h2, h3,
        by simp [← h, h4]⟩
    | none =>
      rw [hr] at h
      obtain ⟨l2, hl2, he⟩ := Option.map_eq_some'.mp h
      obtain ⟨pre, k2, c2, post, xs, y, ys, g1, g2, g3, g4, g5, g6⟩ := ih hl2
      refine ⟨(k, c) :: pre, k2, c2, post, xs, y, ys, by simp [g1], ?_, g3, g4, g5,
        by simp [← he, g6]⟩
      intro q hq
      rcases List.mem_cons.mp hq with hqe | hqm
      · subst hqe
        exact replaceFirstItem_none_iff.mp hr
      · exact g2 q hqm

/-- C3: `update_item` locates the first item across all categories — in
category (tree) order, then item (list) order — whose (label, cmd) equals
that of the old item, and overwrites exactly that entry in place with the
new item, leaving every other entry, every category key and the containing
category of the replaced entry unchanged (so the entry is not moved to a
different category's list, even when the new item's `category` field
differs); when no item matches, it signals "not found" (a warning
notification) and the tree is left unchanged. -/
theorem update_item_replaces_first_match (t : MenuTree) (o n : Item) :
    (update_item t o n = none ↔ ∀ p ∈ t, ∀ it ∈ p.2.items, matchesLC o it = false)
    ∧ (update_item t o n = none →
        update_item_op t o n
          = (t, Notif.warning ("Item not found for update: " ++ o.label)))
    ∧ (∀ t2, update_item t o n = some t2 →
        ∃ pre k c post xs y ys,
          t = pre ++ (k, c) :: post
          ∧ (∀ p ∈ pre, ∀ it ∈ p.2.items, matchesLC o it = false)
          ∧ c.items = xs ++ y :: ys
          ∧ (∀ x ∈ xs, matchesLC o x = false)
          ∧ matchesLC o y = true
          ∧ t2 = pre ++ (k, ⟨c.expanded, xs ++ n :: ys⟩) :: post) := by
  refine ⟨update_item_none_iff, ?_, ?_⟩
  · intro h
    simp [update_item_op, h]
  · intro t2 h
    exact update_item_some_decomp h

/-- C3 witness: at a concrete tree holding no (label, cmd) match for the
old item, `update_item` reports "not found". -/
theorem update_item_replaces_first_match_witness :
    update_item [("A", ⟨true, [⟨"a", "c1", "", "A", none⟩]⟩)]
      ⟨"b", "c2", "", "A", none⟩ ⟨"z", "c3", "", "A", none⟩ = none :=
  (update_item_replaces_first_match _ _ _).1.mpr (by decide)

/-! ### Characterization of action_delete_item -/

theorem delete_noop_of_not_found (t : MenuTree) (it : Item)
    (h : ∀ c, dictLookup t it.category = some c → it ∉ c.items) :
    action_delete_item t it = (t, none) := by
  cases hl : dictLookup t it.category with
  | none => simp [action_delete_item, hl]
  | some c => simp [action_delete_item, hl, h c hl]

theorem header_not_mem_flatten_dictRemove (t : MenuTree) (k : String) :
    DisplayEntry.category k ∉ flatten (dictRemove t k) := by
  intro h
  obtain ⟨p, hp, hpk⟩ := header_mem_flatten_iff.mp h
  have := List.of_mem_filter hp
  simp [hpk] at this

/-- C4 counterexample: at a concrete tree and item data with no exact match
(the category "Tools" exists, but its list holds no value-equal item), the
delete action is a no-op and emits NO notification at all — the `else`-less
`if item_data in items` of src/main.py lines 913-914 — whereas the claim
requires a "not found" warning notification to be emitted. -/
theorem delete_item_not_found_counterexample :
    action_delete_item [("Tools", ⟨true, [⟨"Top", "htop", "", "Tools", none⟩]⟩)]
      ⟨"Editor", "vim", "", "Tools", none⟩
      = ([("Tools", ⟨true, [⟨"Top", "htop", "", "Tools", none⟩]⟩)], none) := by
  decide

/-- C4 (amended): `action_delete_item` removes the first item equal to the
given item data (by value equality) from the list of the category named by
the item's own `category` field, removes that category from the tree
entirely when its list thereby becomes empty (its key and its header entry
in the flattened view disappear), notifies `Deleted: ...` on success, and
leaves every other category untouched; when no exact match exists in that
category's list (or the category is absent), it is a silent no-op: the tree
is unchanged and no notification — in particular no "not found" warning —
is emitted. -/
theorem delete_item_removes_first_match (t : MenuTree) (it : Item) :
    ((∀ c, dictLookup t it.category = some c → it ∉ c.items) →
        action_delete_item t it = (t, none))
    ∧ (∀ c, dictLookup t it.category = some c → it ∈ c.items →
        (action_delete_item t it).2 = some (Notif.info ("Deleted: " ++ it.label))
        ∧ (∃ as bs, c.items = as ++ it :: bs ∧ it ∉ as
            ∧ (as ++ bs = [] →
                dictLookup (action_delete_item t it).1 it.category = none
                ∧ DisplayEntry.category it.category
                    ∉ flatten (action_delete_item t it).1)
            ∧ (as ++ bs ≠ [] →
                dictLookup (action_delete_item t it).1 it.category
                  = some ⟨c.expanded, as ++ bs⟩))
        ∧ ∀ k2, k2 ≠ it.category →
            dictLookup (action_delete_item t it).1 k2 = dictLookup t k2) := by
  refine ⟨delete_noop_of_not_found t it, ?_⟩
  intro c hl hm
  obtain ⟨as, bs, hdec, hnotin, hrem⟩ := removeFirst_decomp hm
  by_cases hemp : removeFirst c.items it = []
  · have ha : action_delete_item t it
        = (dictRemove t it.category, some (Notif.info ("Deleted: " ++ it.label))) := by
      simp [action_delete_item, hl, hm, List.isEmpty_iff, hemp]
    have habs : as ++ bs = [] := by rw [← hrem, hemp]
    refine ⟨by rw [ha], ⟨as, bs, hdec, hnotin, ?_, ?_⟩, ?_⟩
    · intro h0
      rw [ha]
      exact ⟨dictLookup_dictRemove_self t it.category,
        header_not_mem_flatten_dictRemove t it.category⟩
    · intro hne2
      exact absurd habs hne2
    · intro k2 hk2
      rw [ha]
      exact dictLookup_dictRemove_ne hk2
  · have ha : action_delete_item t it
        = (dictUpdate t it.category (fun c0 => ⟨c0.expanded, removeFirst c.items it⟩),
           some (Notif.info ("Deleted: " ++ it.label))) := by
      simp [action_delete_item, hl, hm, List.isEmpty_iff, hemp]
    refine ⟨by rw [ha], ⟨as, bs, hdec, hnotin, ?_, ?_⟩, ?_⟩
    · intro h0
      exact absurd (by rw [← hrem] at h0; exact h0) hemp
    · intro hne2
      rw [ha]
      have := dictLookup_dictUpdate_self
        (fun c0 => ⟨c0.expanded, removeFirst c.items it⟩) hl
      rw [this, hrem]
    · intro k2 hk2
      simp only [ha]
      exact dictLookup_dictUpdate_ne _ hk2

/-- C4 witness: deleting an item that is present removes it and notifies
`Deleted: ...`. -/
theorem delete_item_removes_first_match_witness :
    (action_delete_item [("Tools", ⟨true, [⟨"Top", "htop", "", "Tools", none⟩]⟩)]
        ⟨"Top", "htop", "", "Tools", none⟩).2
      = some (Notif.info ("Deleted: " ++ "Top")) :=
  ((delete_item_removes_first_match _ _).2
    ⟨true, [⟨"Top", "htop", "", "Tools", none⟩]⟩ (by decide) (by decide)).1

/-- C10: `action_delete_item` locates the list to delete from solely via the
item's own `category` field: for every tree and item that resides in the
list of some category other than the one its `category` field names, while
the named category's list (if that category exists at all) holds no
value-equal copy, the delete action leaves the tree unchanged and emits no
notification. -/
theorem delete_item_only_uses_category_field (t : MenuTree) (it : Item)
    (hres : ∃ k c, dictLookup t k = some c ∧ it ∈ c.items ∧ k ≠ it.category)
    (hown : ∀ c, dictLookup t it.category = some c → it ∉ c.items) :
    action_delete_item t it = (t, none) :=
  delete_noop_of_not_found t it hown

/-- C10 witness: an item whose `category` field says "B" while it physically
resides in category "A" (the state `update_item` can reach) is silently not
deleted. -/
theorem delete_item_only_uses_category_field_witness :
    action_delete_item [("A", ⟨true, [⟨"x", "c", "", "B", none⟩]⟩)]
      ⟨"x", "c", "", "B", none⟩
      = ([("A", ⟨true, [⟨"x", "c", "", "B", none⟩]⟩)], none) :=
  delete_item_only_uses_category_field _ _
    ⟨"A", ⟨true, [⟨"x", "c", "", "B", none⟩]⟩, by decide, by decide, by decide⟩
    (fun c h => by
      rw [show dictLookup [("A", (⟨true, [⟨"x", "c", "", "B", none⟩]⟩ : Category))] "B"
            = none from by decide] at h
      exact Option.noConfusion h)

/-! ### Characterization of rename_category -/

/-- C5: `rename_category` is a no-op when the old name is absent from the
tree or the new name equals the old; otherwise it stores the category's
expanded flag and item list under the new key, sets the `category` field of
every contained item to the new name and removes the old key, so that
afterwards the flattened view shows a header for the new name, the old key
is gone, and every item of the renamed category carries the new name in its
`category` field. -/
theorem rename_category_moves_key (t : MenuTree) (o n : String) :
    (dictLookup t o = none → rename_category t o n = t)
    ∧ (n = o → rename_category t o n = t)
    ∧ (∀ c, dictLookup t o = some c → n ≠ o →
        dictLookup (rename_category t o n) n
          = some ⟨c.expanded,
              c.items.map (fun it => ⟨it.label, it.cmd, it.info, n, it.pause⟩)⟩
        ∧ dictLookup (rename_category t o n) o = none
        ∧ DisplayEntry.category n ∈ flatten (rename_category t o n)
        ∧ (∀ c2, dictLookup (rename_category t o n) n = some c2 →
            ∀ it2 ∈ c2.items, it2.category = n)) := by
  refine ⟨?_, ?_, ?_⟩
  · intro h
    simp [rename_category, h]
  · intro h
    cases hl : dictLookup t o with
    | none => simp [rename_category, hl]
    | some c => simp [rename_category, hl, h]
  · intro c hl hno
    have hr : rename_category t o n
        = dictRemove
            (dictInsert t n
              ⟨c.expanded, c.items.map (fun it => ⟨it.label, it.cmd, it.info, n, it.pause⟩)⟩)
            o := by
      simp [rename_category, hl, hno]
    have hlook : dictLookup (rename_category t o n) n
        = some ⟨c.expanded,
            c.items.map (fun it => ⟨it.label, it.cmd, it.info, n, it.pause⟩)⟩ := by
      rw [hr, dictLookup_dictRemove_ne hno, dictLookup_dictInsert_self]
    refine ⟨hlook, ?_, ?_, ?_⟩
    · rw [hr]
      exact dictLookup_dictRemove_self _ o
    · exact header_mem_flatten_iff.mpr
        ⟨_, dictLookup_some_mem hlook, rfl⟩
    · intro c2 h2 it2 hit2
      rw [hlook] at h2
      simp only [Option.some.injEq] at h2
      rw [← h2] at hit2
      obtain ⟨it0, hit0, he⟩ := List.mem_map.mp hit2
      rw [← he]

/-- C5 witness: renaming "System Tools" to "Utils" stores the item list
under "Utils" with every contained item's `category` field set to
"Utils". -/
theorem rename_category_moves_key_witness :
    dictLookup
      (rename_category
        [("System Tools",
          ⟨true, [⟨"System Monitor", "htop", "Interactive process viewer",
                   "System Tools", none⟩]⟩)]
        "System Tools" "Utils") "Utils"
      = some ⟨true, [⟨"System Monitor", "htop", "Interactive process viewer",
                      "Utils", none⟩]⟩ :=
  ((rename_category_moves_key _ _ _).2.2
    ⟨true, [⟨"System Monitor", "htop", "Interactive process viewer",
             "System Tools", none⟩]⟩ (by decide) (by decide)).1

/-! ### Characterization of action_toggle_category -/

theorem findHeaderIdx_spec {es : List DisplayEntry} {name : String} {i : Nat}
    (h : findHeaderIdx es name = some i) :
    es.get? i = some (DisplayEntry.category name) := by
  induction es generalizing i with
  | nil => exact absurd h (by simp [findHeaderIdx])
  | cons e rest ih =>
    cases e with
    | category nm =>
      by_cases hnm : nm = name
      · rw [findHeaderIdx, if_pos hnm] at h
        simp only [Option.some.injEq] at h
        rw [← h]
        simp [hnm]
      · rw [findHeaderIdx, if_neg hnm] at h
        obtain ⟨j, hj, he⟩ := Option.map_eq_some'.mp h
        rw [← he]
        exact ih hj
    | item d =>
      rw [findHeaderIdx] at h
      obtain ⟨j, hj, he⟩ := Option.map_eq_some'.mp h
      rw [← he]
      exact ih hj

theorem findHeaderIdx_isSome {es : List DisplayEntry} {name : String}
    (h : DisplayEntry.category name ∈ es) :
    ∃ i, findHeaderIdx es name = some i := by
  induction es with
  | nil => exact absurd h (by simp)
  | cons e rest ih =>
    cases e with
    | category nm =>
      by_cases hnm : nm = name
      · exact ⟨0, by rw [findHeaderIdx, if_pos hnm]⟩
      · have hm : DisplayEntry.category name ∈ rest := by
          rcases List.mem_cons.mp h with he | hm
          · exact absurd (DisplayEntry.category.inj he).symm hnm
          · exact hm
        obtain ⟨j, hj⟩ := ih hm
        exact ⟨j + 1, by rw [findHeaderIdx, if_neg hnm, hj]; rfl⟩
    | item d =>
      have hm : DisplayEntry.category name ∈ rest := by
        rcases List.mem_cons.mp h with he | hm
        · exact DisplayEntry.noConfusion he
        · exact hm
      obtain ⟨j, hj⟩ := ih hm
      exact ⟨j + 1, by rw [findHeaderIdx, hj]; rfl⟩

theorem NoEmpty_toggle {t : MenuTree} {name : String} (h : NoEmpty t) :
    NoEmpty (toggle_expanded t name) := by
  intro p hp
  unfold toggle_expanded dictUpdate at hp
  obtain ⟨q, hq, he⟩ := List.mem_map.mp hp
  by_cases hk : q.1 = name
  · rw [if_pos (by simp [hk])] at he
    rw [← he]
    exact h q hq
  · rw [if_neg (by simp [hk])] at he
    rw [← he]
    exact h q hq

theorem cleanup_eq_self {t : MenuTree} (h : NoEmpty t) :
    cleanup_empty_categories t = t :=
  List.filter_eq_self.mpr (fun p hp => by simp [List.isEmpty_iff, h p hp])

theorem toggle_toggle (t : MenuTree) (name : String) :
    toggle_expanded (toggle_expanded t name) name = t := by
  induction t with
  | nil => rfl
  | cons p ps ih =>
    obtain ⟨k, e, its⟩ := p
    simp only [toggle_expanded, dictUpdate, List.map_cons] at ih ⊢
    rw [ih]
    by_cases hk : k = name
    · simp [hk]
    · simp [hk]

theorem toggle_keys {t : MenuTree} {name k : String} (h : ∃ p ∈ t, p.1 = k) :
    ∃ p ∈ toggle_expanded t name, p.1 = k := by
  obtain ⟨q, hq, hqk⟩ := h
  by_cases hn : q.1 = name
  · exact ⟨(q.1, ⟨!q.2.expanded, q.2.items⟩),
      List.mem_map.mpr ⟨q, hq, by rw [if_pos (by simp [hn])]⟩, hqk⟩
  · exact ⟨q, List.mem_map.mpr ⟨q, hq, by rw [if_neg (by simp [hn])]⟩, hqk⟩

theorem action_toggle_spec (t : MenuTree) (idx : Nat) (name : String)
    (hne : NoEmpty t)
    (hidx : (flatten t).get? idx = some (DisplayEntry.category name)) :
    (action_toggle_category t idx).1 = toggle_expanded t name
    ∧ (flatten (action_toggle_category t idx).1).get?
        (action_toggle_category t idx).2 = some (DisplayEntry.category name) := by
  have hkey : ∃ p ∈ t, p.1 = name :=
    header_mem_flatten_iff.mp (List.get?_mem hidx)
  have hsome : (dictLookup t name).isSome = true := dictLookup_isSome_iff.mpr hkey
  have ht2 : cleanup_empty_categories (toggle_expanded t name)
      = toggle_expanded t name := cleanup_eq_self (NoEmpty_toggle hne)
  have hmem2 : DisplayEntry.category name ∈ flatten (toggle_expanded t name) :=
    header_mem_flatten_iff.mpr (toggle_keys hkey)
  obtain ⟨j, hj⟩ := findHeaderIdx_isSome hmem2
  have hact : action_toggle_category t idx = (toggle_expanded t name, j) := by
    simp only [action_toggle_category, hidx, hsome, if_true, ht2]
    unfold restore_position_to_category
    rw [hj]
  rw [hact]
  exact ⟨rfl, findHeaderIdx_spec hj⟩

/-- C6: for a displayed tree (no empty categories) with the cursor on a
category's header entry, toggling that category twice restores the tree —
in particular the category's original `expanded` value — and the original
flattened display sequence; after each of the two toggles the cursor is
repositioned to that same category's header entry in the new flattened
sequence (not left at its previous numeric offset). -/
theorem toggle_category_twice_restores (t : MenuTree) (idx : Nat) (name : String)
    (hne : NoEmpty t)
    (hidx : (flatten t).get? idx = some (DisplayEntry.category name)) :
    (flatten (action_toggle_category t idx).1).get? (action_toggle_category t idx).2
        = some (DisplayEntry.category name)
    ∧ (action_toggle_category (action_toggle_category t idx).1
        (action_toggle_category t idx).2).1 = t
    ∧ flatten (action_toggle_category (action_toggle_category t idx).1
        (action_toggle_category t idx).2).1 = flatten t
    ∧ (flatten (action_toggle_category (action_toggle_category t idx).1
          (action_toggle_category t idx).2).1).get?
        (action_toggle_category (action_toggle_category t idx).1
          (action_toggle_category t idx).2).2
        = some (DisplayEntry.category name) := by
  obtain ⟨h1, h2⟩ := action_toggle_spec t idx name hne hidx
  have hne2 : NoEmpty (action_toggle_category t idx).1 := by
    rw [h1]
    exact NoEmpty_toggle hne
  obtain ⟨g1, g2⟩ := action_toggle_spec (action_toggle_category t idx).1
    (action_toggle_category t idx).2 name hne2 h2
  have hback : (action_toggle_category (action_toggle_category t idx).1
      (action_toggle_category t idx).2).1 = t := by
    rw [g1, h1, toggle_toggle]
  exact ⟨h2, hback, by rw [hback], g2⟩

/-- C6 witness: on a concrete one-category tree with the cursor on the
header, two toggles restore the tree. -/
theorem toggle_category_twice_restores_witness :
    (action_toggle_category
      (action_toggle_category [("A", ⟨true, [⟨"x", "c", "", "A", none⟩]⟩)] 0).1
      (action_toggle_category [("A", ⟨true, [⟨"x", "c", "", "A", none⟩]⟩)] 0).2).1
      = [("A", ⟨true, [⟨"x", "c", "", "A", none⟩]⟩)] :=
  (toggle_category_twice_restores [("A", ⟨true, [⟨"x", "c", "", "A", none⟩]⟩)] 0 "A"
    (by decide) (by decide)).2.1

/-! ### The cursor invariant across every mutation -/

theorem add_new_item_has_nonempty (t : MenuTree) (it : Item) :
    ∃ p ∈ add_new_item t it, p.2.items ≠ [] := by
  unfold add_new_item
  by_cases hs : (dictLookup t it.category).isSome = true
  · rw [if_pos hs]
    obtain ⟨c, hc⟩ := Option.isSome_iff_exists.mp hs
    refine ⟨(it.category, ⟨c.expanded, c.items ++ [it]⟩), ?_, by simp⟩
    unfold dictUpdate
    exact List.mem_map.mpr ⟨(it.category, c), dictLookup_some_mem hc, by simp⟩
  · rw [if_neg hs]
    refine ⟨(it.category, ⟨true, [it]⟩), ?_, by simp⟩
    unfold dictUpdate
    exact List.mem_map.mpr
      ⟨(it.category, ⟨true, []⟩), List.mem_append_right t (by simp), by simp⟩

theorem update_item_some_has_nonempty {t t2 : MenuTree} {o n : Item}
    (h : update_item t o n = some t2) : ∃ p ∈ t2, p.2.items ≠ [] := by
  induction t generalizing t2 with
  | nil => exact absurd h (by simp [update_item])
  | cons p rest ih =>
    obtain ⟨k, c⟩ := p
    rw [update_item_cons] at h
    cases hr : replaceFirstItem c.items o n with
    | some items2 =>
      rw [hr] at h
      simp only [Option.some.injEq] at h
      obtain ⟨xs, y, ys, h1, h2, h3, h4⟩ := replaceFirstItem_some_spec hr
      exact ⟨(k, ⟨c.expanded, items2⟩), by rw [← h]; exact List.mem_cons_self _ _,
        by simp [h4]⟩
    | none =>
      rw [hr] at h
      obtain ⟨l2, hl2, he⟩ := Option.map_eq_some'.mp h
      obtain ⟨q, hq, hne2⟩ := ih hl2
      exact ⟨q, by rw [← he]; exact List.mem_cons_of_mem _ hq, hne2⟩

/-- C8: after each of the five mutating actions — add, update, delete,
rename, toggle — run through its full pipeline (mutate, cleanup, re-flatten,
re-clamp as in `update_menu_display` / `update_highlighting`, plus the
extra index adjustment of the delete action), the navigation cursor lies
within `[0, len(flatten(T)) - 1]` whenever the flattened sequence is
non-empty, and equals 0 when the sequence is empty; the pre-state is any
displayed state (tree with no empty category, cursor already in range). -/
theorem cursor_in_range_after_mutations (t : MenuTree) (idx : Nat)
    (it o n : Item) (o2 n2 : String)
    (hne : NoEmpty t) (hok : cursorOK t idx) :
    cursorOK (add_step t idx it).1 (add_step t idx it).2
    ∧ cursorOK (update_step t idx o n).1 (update_step t idx o n).2
    ∧ cursorOK (delete_step t idx it).1 (delete_step t idx it).2
    ∧ cursorOK (rename_step t idx o2 n2).1 (rename_step t idx o2 n2).2
    ∧ cursorOK (action_toggle_category t idx).1 (action_toggle_category t idx).2 := by
  refine ⟨?_, ?_, ?_, ?_, ?_⟩
  · -- add
    have hpos : 0 < (flatten (cleanup_empty_categories (add_new_item t it))).length :=
      flatten_cleanup_length_pos (add_new_item_has_nonempty t it)
    simp only [add_step]
    exact Or.inl (clampIdx_lt hpos)
  · -- update
    cases h : update_item t o n with
    | none =>
      simp only [update_step, h]
      exact hok
    | some t1 =>
      have hpos : 0 < (flatten (cleanup_empty_categories t1)).length :=
        flatten_cleanup_length_pos (update_item_some_has_nonempty h)
      simp only [update_step, h]
      exact Or.inl (clampIdx_lt hpos)
  · -- delete
    cases hd : action_delete_item t it with
    | mk t1 nt =>
      cases nt with
      | none =>
        simp only [delete_step, hd]
        exact hok
      | some msg =>
        simp only [delete_step, hd]
        rcases Nat.eq_zero_or_pos (flatten (cleanup_empty_categories t1)).length
          with hl | hl
        · right
          refine ⟨hl, ?_⟩
          rw [hl]
          rw [if_pos (by omega)]
          decide
        · left
          have hi1 : clampIdx idx (flatten (cleanup_empty_categories t1)).length
              < (flatten (cleanup_empty_categories t1)).length := clampIdx_lt hl
          split
          · omega
          · exact hi1
  · -- rename
    cases hl : dictLookup t o2 with
    | none =>
      simp only [rename_step, hl]
      exact hok
    | some c =>
      by_cases he : n2 = o2
      · simp only [rename_step, hl, if_pos he]
        exact hok
      · simp only [rename_step, hl, if_neg he]
        have hcne : c.items ≠ [] := hne (o2, c) (dictLookup_some_mem hl)
        have hmem : ((n2 : String),
            (⟨c.expanded,
              c.items.map (fun it2 => ⟨it2.label, it2.cmd, it2.info, n2, it2.pause⟩)⟩
              : Category)) ∈ rename_category t o2 n2 := by
          simp only [rename_category, hl, if_neg he]
          refine List.mem_filter.mpr ⟨mem_dictInsert_self _ _ _, ?_⟩
          simp [he]
        have hpos : 0 < (flatten (cleanup_empty_categories (rename_category t o2 n2))).length :=
          flatten_cleanup_length_pos ⟨_, hmem, by simp [hcne]⟩
        exact Or.inl (clampIdx_lt hpos)
  · -- toggle
    cases hg : (flatten t).get? idx with
    | none =>
      simp only [action_toggle_category, hg]
      exact hok
    | some e =>
      cases e with
      | item d =>
        simp only [action_toggle_category, hg]
        exact hok
      | category name =>
        obtain ⟨h1, h2⟩ := action_toggle_spec t idx name hne hg
        left
        obtain ⟨hlt, hget⟩ := List.get?_eq_some.mp h2
        exact hlt

/-- C8 witness: a concrete displayed state run through every mutation. -/
theorem cursor_in_range_after_mutations_witness :
    cursorOK (add_step [("A", ⟨true, [⟨"x", "c", "", "A", none⟩]⟩)] 0
        ⟨"y", "d", "", "A", none⟩).1
      (add_step [("A", ⟨true, [⟨"x", "c", "", "A", none⟩]⟩)] 0
        ⟨"y", "d", "", "A", none⟩).2 :=
  (cursor_in_range_after_mutations [("A", ⟨true, [⟨"x", "c", "", "A", none⟩]⟩)] 0
    ⟨"y", "d", "", "A", none⟩ ⟨"y", "d", "", "A", none⟩ ⟨"z", "e", "", "A", none⟩
    "A" "B" (by decide) (by decide)).1

/-! ### Round-trip lemmas -/

theorem decodeItem_encodeItem (it : Item) : decodeItem (encodeItem it) = some it := by
  cases it with
  | mk l c i k p => cases p <;> rfl

theorem decodeItems_map_encodeItem (items : List Item) :
    decodeItems (items.map encodeItem) = some items := by
  induction items with
  | nil => rfl
  | cons x xs ih => simp [decodeItems, decodeItem_encodeItem, ih]

theorem decodeCategory_encodeCategory (c : Category) :
    decodeCategory (encodeCategory c) = some c := by
  cases c with
  | mk e items =>
    simp [decodeCategory, encodeCategory, jLookup, List.find?,
      decodeItems_map_encodeItem, Option.bind]

theorem decodeTree_encodeTree (t : MenuTree) : decodeTree (encodeTree t) = some t := by
  induction t with
  | nil => rfl
  | cons p ps ih =>
    simp only [decodeTree, encodeTree, List.map_cons, decodeEntries,
      decodeCategory_encodeCategory, Option.bind_some]
    simp only [encodeTree, decodeTree] at ih
    simp [ih]

/-- C2: round-trip — loading the document produced by `save_menu_data`
yields back exactly the tree and settings that were saved (and performs no
write). -/
theorem load_save_round_trip (t : MenuTree) (s : AppSettings) :
    load_menu_data (FileState.parsed (save_menu_data t s)) = (t, s, none) := by
  cases s with
  | mk th ti =>
    simp [load_menu_data, save_menu_data, jLookup, List.find?,
      decodeTree_encodeTree, load_settings]

/-- C7: when the backing JSON file does not exist — or, per the section 8
scenario, exists but cannot be read or parsed (an empty file) — loading
produces the default document: exactly one category "System Tools" with
`expanded = true` holding the single item with label "System Monitor" and
cmd "htop", together with the default settings, and immediately writes that
default document out, so the file then exists with that content. -/
theorem load_missing_bootstraps_default :
    load_menu_data FileState.missing
      = ([("System Tools",
           ⟨true, [⟨"System Monitor", "htop", "Interactive process viewer",
                    "System Tools", none⟩]⟩)],
         ⟨"classic", "Menu Maker — Enhanced Categorized Menu System"⟩,
         some (save_menu_data
           [("System Tools",
             ⟨true, [⟨"System Monitor", "htop", "Interactive process viewer",
                      "System Tools", none⟩]⟩)]
           ⟨"classic", "Menu Maker — Enhanced Categorized Menu System"⟩))
    ∧ load_menu_data FileState.unreadable = load_menu_data FileState.missing := by
  constructor <;> rfl

/-- C9: when the backing file exists but fails to read or parse, loading
does not only fall back to the in-memory default tree: it also immediately
writes the default document, overwriting the previous file contents. -/
theorem load_unreadable_overwrites_file :
    (load_menu_data FileState.unreadable).1
      = [("System Tools",
          ⟨true, [⟨"System Monitor", "htop", "Interactive process viewer",
                   "System Tools", none⟩]⟩)]
    ∧ (load_menu_data FileState.unreadable).2.2
      = some (save_menu_data create_default_menu_data default_app_settings) := by
  constructor <;> rfl

/-- C1: the flattened display list built by `update_menu_display` iterates
categories in tree (insertion) order, emits exactly one category header entry
per category and, exactly when that category's expanded flag is true, emits
one item entry per item in that category's list order immediately after the
header; a collapsed category contributes only its header entry.  Stated as:
the loop of the code equals the declarative flattener worded from the
specification. -/
theorem flatten_eq_flatten_spec (t : MenuTree) : flatten t = flatten_spec t := by
  simpa using flatten_go t []

end MenuMaker
